/-
Verification of the snapshot-to-daily expansion engine of the
`tushare-email-fetch` repository (scripts/index_weight_utils.py and
scripts/fetch_tushare.py), as a shallow embedding in Lean 4.

Dates are modelled as natural numbers counting days, so that `d + 1` is
`d + timedelta(days=1)` (Python `date` values are only ever compared,
ordered, or advanced by one day); instrument / index codes are modelled as
natural numbers (they are opaque identifiers); prices and weights are
modelled as rationals with `Option` for missing (NaN) cells.
-/
import Mathlib

namespace IndexWeight

abbrev Date := Nat
abbrev Code := Nat

/-- Python `sorted(set(xs))` as used on the requested trade-date list
(`trade_dates = sorted(set(trade_dates))` in `expand_index_weight_daily`)
and on the panel axis (`pivot.reindex(sorted(set(trade_dates)))`). -/
def dedupSort (l : List Date) : List Date :=
  l.dedup.insertionSort (fun a b => a ≤ b)

/-- The list comprehension of `expand_index_weight_daily` (segmenter):
`[d for d in trade_dates if d >= snap_date and (next_snap is None or d < next_snap)]`. -/
def segmentDays (tradeDates : List Date) (snapDate : Date) (nextSnap : Option Date) :
    List Date :=
  tradeDates.filter fun d =>
    decide (snapDate ≤ d) &&
      (match nextSnap with
       | none => true
       | some ns => decide (d < ns))

/-- The days assigned to snapshot `i` of a sorted, duplicate-free snapshot-date
list: `snap_dates[i]` is the anchor, `snap_dates[i+1]` (when it exists) the
exclusive upper bound. -/
def intervalDays (tradeDates snapDates : List Date) (i : Nat) : List Date :=
  match snapDates[i]? with
  | none => []
  | some s => segmentDays tradeDates s snapDates[i + 1]?

theorem mem_segmentDays (tradeDates : List Date) (snapDate : Date)
    (nextSnap : Option Date) (d : Date) :
    d ∈ segmentDays tradeDates snapDate nextSnap ↔
      d ∈ tradeDates ∧ snapDate ≤ d ∧ ∀ ns, nextSnap = some ns → d < ns := by
  unfold segmentDays
  rw [List.mem_filter]
  constructor
  · rintro ⟨hmem, hcond⟩
    rw [Bool.and_eq_true] at hcond
    obtain ⟨h1, h2⟩ := hcond
    refine ⟨hmem, of_decide_eq_true h1, ?_⟩
    intro ns hns
    subst hns
    simpa using h2
  · rintro ⟨hmem, h1, h2⟩
    refine ⟨hmem, ?_⟩
    rw [Bool.and_eq_true]
    refine ⟨decide_eq_true h1, ?_⟩
    cases nextSnap with
    | none => rfl
    | some ns => simpa using h2 ns rfl

theorem mem_intervalDays (tradeDates snapDates : List Date) (i : Nat) (d : Date) :
    d ∈ intervalDays tradeDates snapDates i ↔
      d ∈ tradeDates ∧
        ∃ s, snapDates[i]? = some s ∧ s ≤ d ∧
          ∀ ns, snapDates[i + 1]? = some ns → d < ns := by
  unfold intervalDays
  cases h : snapDates[i]? with
  | none =>
      simp only [List.not_mem_nil, false_iff]
      rintro ⟨-, s, hs, -⟩
      exact Option.noConfusion hs
  | some s =>
      rw [mem_segmentDays]
      constructor
      · rintro ⟨hmem, hle, hub⟩
        exact ⟨hmem, s, rfl, hle, hub⟩
      · rintro ⟨hmem, s', hs', hle, hub⟩
        cases hs'
        exact ⟨hmem, hle, hub⟩

theorem sorted_getElem?_lt {snapDates : List Date}
    (hs : snapDates.Sorted (· < ·)) {i j : Nat} (hij : i < j) {si sj : Date}
    (hi : snapDates[i]? = some si) (hj : snapDates[j]? = some sj) : si < sj := by
  obtain ⟨hi', hieq⟩ := List.getElem?_eq_some.mp hi
  obtain ⟨hj', hjeq⟩ := List.getElem?_eq_some.mp hj
  subst hieq hjeq
  exact List.pairwise_iff_get.mp hs ⟨i, hi'⟩ ⟨j, hj'⟩ hij

theorem sorted_getElem?_le {snapDates : List Date}
    (hs : snapDates.Sorted (· < ·)) {i j : Nat} (hij : i ≤ j) {si sj : Date}
    (hi : snapDates[i]? = some si) (hj : snapDates[j]? = some sj) : si ≤ sj := by
  rcases Nat.lt_or_ge i j with h | h
  · exact Nat.le_of_lt (sorted_getElem?_lt hs h hi hj)
  · have : i = j := Nat.le_antisymm hij h
    subst this
    rw [hi] at hj
    exact Nat.le_of_eq (Option.some.inj hj)

/-- Two distinct intervals never share a day. -/
theorem intervalDays_disjoint {tradeDates snapDates : List Date}
    (hs : snapDates.Sorted (· < ·)) {i j : Nat} (hij : i < j) (d : Date)
    (hi : d ∈ intervalDays tradeDates snapDates i)
    (hj : d ∈ intervalDays tradeDates snapDates j) : False := by
  obtain ⟨-, si, hsi, hle_i, hub_i⟩ := (mem_intervalDays _ _ _ _).mp hi
  obtain ⟨-, sj, hsj, hle_j, -⟩ := (mem_intervalDays _ _ _ _).mp hj
  obtain ⟨hj', -⟩ := List.getElem?_eq_some.mp hsj
  have hi1 : i + 1 < snapDates.length := Nat.lt_of_le_of_lt (Nat.succ_le_of_lt hij) hj'
  have hsucc : snapDates[i + 1]? = some snapDates[i + 1] := List.getElem?_eq_getElem hi1
  have hdlt : d < snapDates[i + 1] := hub_i _ hsucc
  have hmono : snapDates[i + 1] ≤ sj :=
    sorted_getElem?_le hs (Nat.succ_le_of_lt hij) hsucc hsj
  exact absurd hle_j (Nat.not_le_of_lt (Nat.lt_of_lt_of_le hdlt hmono))

/-- C1. Segment partition: for a sorted duplicate-free snapshot-date list and
any trading-day calendar, (a) snapshot `i`'s interval holds exactly the
calendar days `d` with `s_i ≤ d` and, when a successor exists, `d < s_{i+1}`;
(b) a calendar day equal to a snapshot's date belongs to that snapshot's
interval and to no other; (c) every calendar day on or after the first
snapshot's date lies in exactly one interval, and every day strictly before
it lies in none. -/
theorem c1_segmenter_partition
    (tradeDates snapDates : List Date)
    (hsorted : snapDates.Sorted (· < ·))
    (d : Date) (hd : d ∈ tradeDates)
    (s0 : Date) (h0 : snapDates[0]? = some s0) :
    (∀ i si, snapDates[i]? = some si →
        (d ∈ intervalDays tradeDates snapDates i ↔
          si ≤ d ∧ ∀ ns, snapDates[i + 1]? = some ns → d < ns)) ∧
    (∀ i si, snapDates[i]? = some si → si ∈ tradeDates →
        si ∈ intervalDays tradeDates snapDates i ∧
        ∀ j, j ≠ i → si ∉ intervalDays tradeDates snapDates j) ∧
    (s0 ≤ d → ∃! i, d ∈ intervalDays tradeDates snapDates i) ∧
    (d < s0 → ∀ i, d ∉ intervalDays tradeDates snapDates i) := by
  have hlen0 : 0 < snapDates.length := (List.getElem?_eq_some.mp h0).1
  refine ⟨?_, ?_, ?_, ?_⟩
  · intro i si hsi
    rw [mem_intervalDays]
    constructor
    · rintro ⟨-, s', hs', hle, hub⟩
      rw [hsi] at hs'
      cases Option.some.inj hs'
      exact ⟨hle, hub⟩
    · rintro ⟨hle, hub⟩
      exact ⟨hd, si, hsi, hle, hub⟩
  · intro i si hsi hmem
    have hin : si ∈ intervalDays tradeDates snapDates i := by
      rw [mem_intervalDays]
      refine ⟨hmem, si, hsi, Nat.le_refl si, ?_⟩
      intro ns hns
      exact sorted_getElem?_lt hsorted (Nat.lt_succ_self i) hsi hns
    refine ⟨hin, ?_⟩
    intro j hji hcontra
    rcases Nat.lt_or_ge j i with h | h
    · exact intervalDays_disjoint hsorted h si hcontra hin
    · exact intervalDays_disjoint hsorted (Nat.lt_of_le_of_ne h (Ne.symm hji)) si hin
        hcontra
  · intro hs0d
    set P : Nat → Prop := fun k => k < snapDates.length ∧ snapDates.getD k 0 ≤ d with hP
    have hP0 : P 0 := by
      refine ⟨hlen0, ?_⟩
      rw [List.getD_eq_getElem snapDates 0 hlen0]
      have := List.getElem?_eq_getElem hlen0
      rw [this] at h0
      rw [Option.some.inj h0]
      exact hs0d
    set i0 := Nat.findGreatest P (snapDates.length - 1) with hi0
    have hPi0 : P i0 := Nat.findGreatest_spec (Nat.zero_le _) hP0
    obtain ⟨hi0len, hi0le⟩ := hPi0
    have hgi0 : snapDates[i0]? = some (snapDates.getD i0 0) := by
      rw [List.getD_eq_getElem snapDates 0 hi0len]
      exact List.getElem?_eq_getElem hi0len
    have hmem_i0 : d ∈ intervalDays tradeDates snapDates i0 := by
      rw [mem_intervalDays]
      refine ⟨hd, snapDates.getD i0 0, hgi0, hi0le, ?_⟩
      intro ns hns
      obtain ⟨hns', hnseq⟩ := List.getElem?_eq_some.mp hns
      have hnotP : ¬P (i0 + 1) := by
        apply Nat.findGreatest_is_greatest (Nat.lt_succ_self i0)
        exact Nat.le_sub_one_of_lt hns'
      by_contra hcon
      apply hnotP
      refine ⟨hns', ?_⟩
      rw [List.getD_eq_getElem snapDates 0 hns', hnseq]
      exact Nat.le_of_not_lt hcon
    refine ⟨i0, hmem_i0, ?_⟩
    intro j hj
    rcases Nat.lt_trichotomy j i0 with h | h | h
    · exact absurd (intervalDays_disjoint hsorted h d hj hmem_i0) id
    · exact h
    · exact absurd (intervalDays_disjoint hsorted h d hmem_i0 hj) id
  · intro hds0 i hcon
    obtain ⟨-, si, hsi, hle, -⟩ := (mem_intervalDays _ _ _ _).mp hcon
    have : s0 ≤ si := sorted_getElem?_le hsorted (Nat.zero_le i) h0 hsi
    exact absurd (Nat.le_trans this hle) (Nat.not_le_of_lt hds0)

/-- One row of the raw `index_weight` snapshot table
(`index_code, con_code, trade_date, weight`); `weight` is `Option` because a
CSV cell can be NaN. -/
structure SnapshotRow where
  index_code : Code
  con_code : Code
  trade_date : Date
  weight : Option ℚ
deriving DecidableEq

/-- One raw price row (`ts_code, trade_date, close`); every field is `Option`
because `_prepare_price_panel` starts with `dropna(subset=[...])`. -/
structure PriceRow where
  ts_code : Option Code
  trade_date : Option Date
  close : Option ℚ
deriving DecidableEq

/-- The pivoted price panel: date axis (the pivot index after
`reindex(sorted(set(trade_dates)))`), instrument columns, and the cell
lookup after forward fill. -/
structure Panel where
  axis : List Date
  cols : List Code
  cell : Code → Date → Option ℚ

/-- The `prices.dropna(subset=["trade_date", "ts_code", "close"])` step: keep only rows
with all three fields present. -/
def cleanPrices (prices : List PriceRow) : List (Code × Date × ℚ) :=
  prices.filterMap fun r =>
    match r.ts_code, r.trade_date, r.close with
    | some c, some d, some v => some (c, d, v)
    | _, _, _ => none

/-- The raw pivot cell: the close of instrument `c` observed exactly on day
`d` (the pivot `ts_code x trade_date -> close` before reindex/ffill). -/
def obsAt (clean : List (Code × Date × ℚ)) (c : Code) (d : Date) : Option ℚ :=
  (clean.find? fun t => t.1 == c && t.2.1 == d).map fun t => t.2.2

/-- One cell of the reindexed, forward-filled pivot: rows outside the target
axis are dropped by `reindex`, and `ffill` carries the nearest
earlier-or-equal observation on the axis forward. -/
def ffillCell (clean : List (Code × Date × ℚ)) (axis : List Date) (c : Code)
    (d : Date) : Option ℚ :=
  if d ∈ axis then ((axis.filter fun x => x ≤ d).reverse.findSome? (obsAt clean c))
  else none

/-- Translation of `_prepare_price_panel(prices, trade_dates)`. -/
def preparePricePanel (prices : List PriceRow) (tradeDates : List Date) :
    Option Panel :=
  if prices.isEmpty then none
  else
    some
      ⟨dedupSort tradeDates,
       ((cleanPrices prices).map fun t => t.1).dedup,
       fun c d => ffillCell (cleanPrices prices) (dedupSort tradeDates) c d⟩

/-- One output row of `_compute_drift_weights` after `stack()` (NaN cells are
dropped by `stack`, so only defined drift values appear). -/
structure DriftEntry where
  trade_date : Date
  con_code : Code
  drift_weight : ℚ
deriving DecidableEq

/-- Lookup `snapshot_rows.set_index("con_code")["weight"]`: the weight of constituent
`c` in the snapshot (first matching row). -/
def weightOf (rows : List SnapshotRow) (c : Code) : Option ℚ :=
  (rows.find? fun r => r.con_code == c).bind fun r => r.weight

/-- The list `codes = snapshot_rows["con_code"].tolist()`. -/
def codesOf (rows : List SnapshotRow) : List Code :=
  rows.map fun r => r.con_code

/-- The index `valid_codes = base_prices.dropna().index`: the constituents whose base
price at the snapshot date is defined (note: a base price of 0 is defined
and is NOT dropped). -/
def validCodes (panel : Panel) (snapshotDate : Date) (rows : List SnapshotRow) :
    List Code :=
  (codesOf rows).filter fun c => (panel.cell c snapshotDate).isSome

/-- The series `weights = weights.reindex(valid_codes).dropna()` paired back with its
codes: constituents with a defined base price and a defined weight, in
snapshot order. -/
def validPairs (panel : Panel) (snapshotDate : Date) (rows : List SnapshotRow) :
    List (Code × ℚ) :=
  (validCodes panel snapshotDate rows).filterMap fun c =>
    (weightOf rows c).map fun w => (c, w)

/-- The base price used as divisor (defined for every valid code). -/
def baseAt (panel : Panel) (snapshotDate : Date) (c : Code) : ℚ :=
  (panel.cell c snapshotDate).getD 0

/-- One cell of `weighted = rel.multiply(weights, axis=1)` with
`rel = segment_prices.divide(base_prices)`:
`weight_c * (price(d, c) / base_c)`, undefined when the day price is NaN.
Caveat: rational division is total with `x / 0 = 0`, whereas the source's
float division by a zero base yields `inf` (or NaN for `0/0`); this
definition is therefore faithful only on inputs whose divided base prices
are nonzero, and any statement about the division itself must carry that
hypothesis (a zero base does reach the division in the source — see
`c7_zero_base_not_excluded`). -/
def weightedAt (panel : Panel) (snapshotDate : Date) (d : Date)
    (cw : Code × ℚ) : Option ℚ :=
  (panel.cell cw.1 d).map fun p => cw.2 * (p / baseAt panel snapshotDate cw.1)

/-- The row sum `denom = weighted.sum(axis=1)` (a skip-NaN sum). -/
def denomAt (panel : Panel) (snapshotDate : Date) (pairs : List (Code × ℚ))
    (d : Date) : ℚ :=
  (pairs.map fun cw => (weightedAt panel snapshotDate d cw).getD 0).sum

/-- The long-format drift output: for each segment day, if the renormalization
denominator is zero the whole day is dropped (`denom.replace(0, pd.NA)`
followed by `stack()`), otherwise each constituent with a defined weighted
value contributes `weighted / denom`. -/
def driftEntriesFor (panel : Panel) (snapshotDate : Date)
    (pairs : List (Code × ℚ)) (days : List Date) : List DriftEntry :=
  days.flatMap fun d =>
    if denomAt panel snapshotDate pairs d = 0 then []
    else
      pairs.filterMap fun cw =>
        (weightedAt panel snapshotDate d cw).map fun x =>
          ⟨d, cw.1, x / denomAt panel snapshotDate pairs d⟩

/-- Translation of `_compute_drift_weights(price_panel, snapshot_date, segment_days,
snapshot_rows)`. The `try/except KeyError` around
`price_panel.loc[snapshot_date, codes]` fails when the snapshot date is not
on the panel axis or when some constituent has no column in the panel. -/
def computeDriftWeights (panel : Panel) (snapshotDate : Date)
    (segDays : List Date) (rows : List SnapshotRow) : Option (List DriftEntry) :=
  if snapshotDate ∈ panel.axis ∧ ∀ c ∈ codesOf rows, c ∈ panel.cols
  then
    if (validCodes panel snapshotDate rows).isEmpty then none
    else
      if (validPairs panel snapshotDate rows).isEmpty then none
      else some (driftEntriesFor panel snapshotDate (validPairs panel snapshotDate rows) segDays)
  else none

/-- The `drift_weight` value attached to an output row by the left merge on
`(trade_date, con_code)`: absent when no drift table was produced or when the
pair has no entry. -/
def driftLookup (drift : Option (List DriftEntry)) (d : Date) (c : Code) :
    Option ℚ :=
  match drift with
  | none => none
  | some entries =>
      (entries.find? fun e => e.trade_date == d && e.con_code == c).map
        fun e => e.drift_weight

/-- One daily output row. -/
structure DailyWeightRow where
  trade_date : Date
  snapshot_date : Date
  index_code : Code
  con_code : Code
  weight : Option ℚ
  drift_weight : Option ℚ
deriving DecidableEq

/-- The rows emitted for one interval: `snap_rows.assign(trade_date=d)` for
each segment day, left-merged with the drift table. -/
def intervalRows (snapRows : List SnapshotRow) (snapDate : Date)
    (days : List Date) (drift : Option (List DriftEntry)) : List DailyWeightRow :=
  days.flatMap fun d =>
    snapRows.map fun r =>
      ⟨d, snapDate, r.index_code, r.con_code, r.weight,
        driftLookup drift d r.con_code⟩

/-- The sorted distinct snapshot dates of one index group
(`g.sort_values("trade_date")["trade_date"].drop_duplicates()`). -/
def snapDatesOf (g : List SnapshotRow) : List Date :=
  dedupSort (g.map fun r => r.trade_date)

/-- The per-index expansion loop body of `expand_index_weight_daily`. -/
def expandGroup (g : List SnapshotRow) (tds : List Date) (panel : Option Panel) :
    List DailyWeightRow :=
  (List.range (snapDatesOf g).length).flatMap fun i =>
    match (snapDatesOf g)[i]? with
    | none => []
    | some s =>
        intervalRows (g.filter fun r => r.trade_date == s) s
          (segmentDays tds s (snapDatesOf g)[i + 1]?)
          (panel.bind fun p =>
            computeDriftWeights p s (segmentDays tds s (snapDatesOf g)[i + 1]?)
              (g.filter fun r => r.trade_date == s))

/-- The output column schema written by `expand_index_weight_daily`. -/
def targetColumns : List String :=
  ["trade_date", "snapshot_date", "index_code", "con_code", "weight",
   "drift_weight"]

/-- The CSV written by `expand_index_weight_daily`: a header line plus data
rows. -/
structure DailyOutput where
  header : List String
  rows : List DailyWeightRow
deriving DecidableEq

/-- Translation of `expand_index_weight_daily(df, trade_dates, output_path, prices=...)`,
returning the written output and the returned row count. -/
def expandIndexWeightDaily (df : List SnapshotRow) (tradeDates : List Date)
    (prices : Option (List PriceRow)) : DailyOutput × Nat :=
  if df.isEmpty then (⟨targetColumns, []⟩, 0)
  else
    let tds := dedupSort tradeDates
    let panel := prices.bind fun p =>
      if p.isEmpty then none else preparePricePanel p tds
    let rows := (dedupSort (df.map fun r => r.index_code)).flatMap fun k =>
      expandGroup (df.filter fun r => r.index_code == k) tds panel
    (⟨targetColumns, rows⟩, rows.length)

/-- The dedup key of `drop_duplicates(subset=["index_code", "con_code",
"trade_date"])`. -/
def dedupKey (r : SnapshotRow) : Code × Code × Date :=
  (r.index_code, r.con_code, r.trade_date)

/-- The `drop_duplicates` call with pandas' default `keep="first"`: walk the rows in
order and keep a row only when its key has not been seen yet. -/
def dropDuplicatesByKey : List SnapshotRow → List (Code × Code × Date) →
    List SnapshotRow
  | [], _ => []
  | r :: rest, seen =>
      if dedupKey r ∈ seen then dropDuplicatesByKey rest seen
      else r :: dropDuplicatesByKey rest (dedupKey r :: seen)

def dropDuplicatesFirst (rows : List SnapshotRow) : List SnapshotRow :=
  dropDuplicatesByKey rows []

/-- The sort key of `sort_values(["trade_date", "index_code", "con_code"])`. -/
def rowKey (r : SnapshotRow) : Date × Code × Code :=
  (r.trade_date, r.index_code, r.con_code)

/-- Lexicographic order on the sort key. -/
def keyLe (a b : Date × Code × Code) : Prop :=
  a.1 < b.1 ∨ (a.1 = b.1 ∧ (a.2.1 < b.2.1 ∨ (a.2.1 = b.2.1 ∧ a.2.2 ≤ b.2.2)))

instance : DecidableRel keyLe := fun a b => by
  unfold keyLe
  infer_instance

def rowLe (a b : SnapshotRow) : Prop := keyLe (rowKey a) (rowKey b)

instance : DecidableRel rowLe := fun a b => by
  unfold rowLe
  infer_instance

theorem lex3_total (x1 y1 z1 x2 y2 z2 : Nat) :
    (x1 < x2 ∨ (x1 = x2 ∧ (y1 < y2 ∨ (y1 = y2 ∧ z1 ≤ z2)))) ∨
      (x2 < x1 ∨ (x2 = x1 ∧ (y2 < y1 ∨ (y2 = y1 ∧ z2 ≤ z1)))) := by
  omega

theorem lex3_trans (x1 y1 z1 x2 y2 z2 x3 y3 z3 : Nat)
    (h1 : x1 < x2 ∨ (x1 = x2 ∧ (y1 < y2 ∨ (y1 = y2 ∧ z1 ≤ z2))))
    (h2 : x2 < x3 ∨ (x2 = x3 ∧ (y2 < y3 ∨ (y2 = y3 ∧ z2 ≤ z3)))) :
    x1 < x3 ∨ (x1 = x3 ∧ (y1 < y3 ∨ (y1 = y3 ∧ z1 ≤ z3))) := by
  omega

instance : IsTotal SnapshotRow rowLe :=
  ⟨by
    intro a b
    unfold rowLe keyLe rowKey
    dsimp only
    exact lex3_total a.trade_date a.index_code a.con_code b.trade_date
      b.index_code b.con_code⟩

instance : IsTrans SnapshotRow rowLe :=
  ⟨by
    intro a b c hab hbc
    unfold rowLe keyLe rowKey at *
    dsimp only at *
    exact lex3_trans a.trade_date a.index_code a.con_code b.trade_date
      b.index_code b.con_code c.trade_date c.index_code c.con_code hab hbc⟩

/-- The sort `sort_values(["trade_date", "index_code", "con_code"])` (stable). -/
def sortRows (rows : List SnapshotRow) : List SnapshotRow :=
  rows.insertionSort rowLe

/-- The merge step of `refresh_index_weight` when an existing table is present
and `force_full_refresh` is false: concat + `drop_duplicates` (keep first) +
sort; an empty fetch keeps the existing table, which is still sorted when
non-empty. -/
def mergeIncremental (existing dfNew : List SnapshotRow) : List SnapshotRow :=
  let finalDf := if dfNew.isEmpty then existing
    else dropDuplicatesFirst (existing ++ dfNew)
  if finalDf.isEmpty then finalDf else sortRows finalDf

/-- Modelled from the spec: the spec's own description of the merge
("deduplicate ... keeping one row per key (last-seen wins on duplicate), then
sort"); kept separate from `mergeIncremental` (translated from the source) so
the two can be compared. `keep last` keeps the final occurrence of each key. -/
def specMergeLastWins (existing dfNew : List SnapshotRow) : List SnapshotRow :=
  sortRows ((dropDuplicatesFirst (existing ++ dfNew).reverse).reverse)

/-- The value `_min_max_trade_date(df)[1]`: the max snapshot date in the table. -/
def maxTradeDate (rows : List SnapshotRow) : Date :=
  (rows.map fun r => r.trade_date).foldl max 0

/-- The observable outcome of one `refresh_index_weight` run on the raw
table: the final table, the `rows_added` count, and whether the upstream
fetch was invoked at all. -/
structure RefreshOutcome where
  merged : List SnapshotRow
  rows_added : Nat
  fetchCalled : Bool
deriving DecidableEq

/-- The raw-table part of `refresh_index_weight`: window computation, the
skip-fetch shortcut, and the merge. `existing` is the loaded table when
`has_data_rows` succeeded; `fetch` is the external collaborator, called with
the computed window. `none` models the early `return []` (no table at all and
nothing to fetch). -/
def refreshIndexWeight (existing : Option (List SnapshotRow))
    (defaultStart endDate : Date) (fetch : Date → Date → List SnapshotRow)
    (forceFullRefresh : Bool) : Option RefreshOutcome :=
  let existingDf := if forceFullRefresh then none else existing
  let start := match existingDf with
    | some df => if df.isEmpty then defaultStart else maxTradeDate df + 1
    | none => defaultStart
  if endDate < start then
    match existingDf with
    | none => none
    | some df => some ⟨df, 0, false⟩
  else
    match existingDf with
    | some df =>
        some ⟨mergeIncremental df (fetch start endDate),
          (fetch start endDate).length, true⟩
    | none =>
        some ⟨(if (fetch start endDate).isEmpty then fetch start endDate
            else sortRows (fetch start endDate)),
          (fetch start endDate).length, true⟩

/-- C9. An empty snapshot table expands to an empty output that still carries
the full target column schema (`trade_date, snapshot_date, index_code,
con_code, weight, drift_weight`) and a row count of 0, for every calendar and
every (optional) price input; no error path is taken. -/
theorem c9_empty_table_schema_only (tradeDates : List Date)
    (prices : Option (List PriceRow)) :
    expandIndexWeightDaily [] tradeDates prices = (⟨targetColumns, []⟩, 0) ∧
      targetColumns =
        ["trade_date", "snapshot_date", "index_code", "con_code", "weight",
         "drift_weight"] :=
  ⟨rfl, rfl⟩

/-- C10. If the anchor snapshot date is not on the price panel's date axis,
`_compute_drift_weights` returns no result for the interval (the
`KeyError` branch), so every emitted row of the interval has an undefined
`drift_weight`, whatever prices are available on the interval's days. -/
theorem c10_snapshot_date_off_axis (panel : Panel) (s : Date)
    (segDays : List Date) (rows : List SnapshotRow) (h : s ∉ panel.axis) :
    computeDriftWeights panel s segDays rows = none ∧
      ∀ rw ∈ intervalRows rows s segDays
          (computeDriftWeights panel s segDays rows),
        rw.drift_weight = none := by
  have hnone : computeDriftWeights panel s segDays rows = none := by
    unfold computeDriftWeights
    rw [if_neg]
    intro hcon
    exact h hcon.1
  refine ⟨hnone, ?_⟩
  intro rw hrw
  rw [hnone] at hrw
  unfold intervalRows at hrw
  rw [List.mem_flatMap] at hrw
  obtain ⟨d, -, hrw⟩ := hrw
  rw [List.mem_map] at hrw
  obtain ⟨r, -, hrq⟩ := hrw
  rw [← hrq]
  rfl

/-- Witness inputs: a panel whose axis is `[5, 7]` with a single instrument
`1` priced 1 on both days, and a single snapshot row of weight 1. -/
def wPanel : Panel :=
  ⟨[5, 7], [1],
   fun c d =>
     if c = 1 then (if d = 5 then some 1 else if d = 7 then some 1 else none)
     else none⟩

def wRows : List SnapshotRow := [⟨9, 1, 5, some 1⟩]

theorem c10_snapshot_date_off_axis_witness :
    (6 : Date) ∉ wPanel.axis ∧
      computeDriftWeights wPanel 6 [7] wRows = none ∧
        ∀ rw ∈ intervalRows wRows 6 [7] (computeDriftWeights wPanel 6 [7] wRows),
          rw.drift_weight = none :=
  ⟨by decide, c10_snapshot_date_off_axis wPanel 6 [7] wRows (by decide)⟩

/-- Inputs exhibiting the zero-base-price behaviour: instrument 2 has a
defined base price of exactly 0 on the snapshot day 5. -/
def zPanel : Panel :=
  ⟨[5, 7], [1, 2],
   fun c d =>
     if c = 1 then (if d = 5 then some 1 else if d = 7 then some 1 else none)
     else if c = 2 then (if d = 5 then some 0 else if d = 7 then some 1 else none)
     else none⟩

def zRows : List SnapshotRow := [⟨9, 1, 5, some 1⟩, ⟨9, 2, 5, some 1⟩]

/-- C7 (code evidence). A constituent whose base price equals 0 is NOT
excluded from the drift calculation: `base_prices.dropna()` drops only
undefined values, so the zero-base constituent stays in `valid_codes` and in
the weight/base pairs over which `rel = segment_prices.divide(base_prices)`
is computed — the division by its zero base price is performed. -/
theorem c7_zero_base_not_excluded :
    zPanel.cell 2 5 = some 0 ∧
      2 ∈ validCodes zPanel 5 zRows ∧
        (2, (1 : ℚ)) ∈ validPairs zPanel 5 zRows := by
  refine ⟨rfl, ?_, ?_⟩
  · simp [validCodes, codesOf, zPanel, zRows]
  · simp [validPairs, validCodes, codesOf, weightOf, zPanel, zRows]

theorem computeDriftWeights_some_spec {panel : Panel} {s : Date}
    {segDays : List Date} {rows : List SnapshotRow} {entries : List DriftEntry}
    (h : computeDriftWeights panel s segDays rows = some entries) :
    entries = driftEntriesFor panel s (validPairs panel s rows) segDays := by
  unfold computeDriftWeights at h
  split at h
  · split at h
    · exact absurd h (by simp)
    · split at h
      · exact absurd h (by simp)
      · exact (Option.some.inj h).symm
  · exact absurd h (by simp)

theorem mem_driftEntriesFor {panel : Panel} {s : Date} {pairs : List (Code × ℚ)}
    {days : List Date} {e : DriftEntry}
    (he : e ∈ driftEntriesFor panel s pairs days) :
    e.trade_date ∈ days ∧ denomAt panel s pairs e.trade_date ≠ 0 ∧
      e.con_code ∈ pairs.map Prod.fst := by
  unfold driftEntriesFor at he
  rw [List.mem_flatMap] at he
  obtain ⟨d, hd, he⟩ := he
  by_cases hz : denomAt panel s pairs d = 0
  · rw [if_pos hz] at he
    exact absurd he (by simp)
  · rw [if_neg hz] at he
    rw [List.mem_filterMap] at he
    obtain ⟨cw, hcw, hmap⟩ := he
    cases hw : weightedAt panel s d cw with
    | none =>
        rw [hw] at hmap
        exact absurd hmap (by simp)
    | some x =>
        rw [hw] at hmap
        simp only [Option.map_some'] at hmap
        cases hmap
        exact ⟨hd, hz, List.mem_map.mpr ⟨cw, hcw, rfl⟩⟩

/-- C6. If the renormalization denominator is zero on day `d`, the drift
output (when the computation as a whole succeeded) carries no value for `d`
at all — every constituent's `drift_weight` is undefined that day — and the
static weight rows of the interval are still emitted for `d` with
`drift_weight` absent; no error is raised. -/
theorem c6_zero_denominator (panel : Panel) (s : Date) (segDays : List Date)
    (rows : List SnapshotRow) (entries : List DriftEntry)
    (h : computeDriftWeights panel s segDays rows = some entries)
    (d : Date) (hden : denomAt panel s (validPairs panel s rows) d = 0) :
    (∀ c, driftLookup (some entries) d c = none) ∧
      ∀ r ∈ rows, d ∈ segDays →
        (⟨d, s, r.index_code, r.con_code, r.weight, none⟩ : DailyWeightRow) ∈
          intervalRows rows s segDays (some entries) := by
  have hent := computeDriftWeights_some_spec h
  have hnod : ∀ c, driftLookup (some entries) d c = none := by
    intro c
    unfold driftLookup
    cases hfind : entries.find? fun e => e.trade_date == d && e.con_code == c with
    | none => simp [hfind]
    | some e =>
        exfalso
        have hmem : e ∈ entries := List.mem_of_find?_eq_some hfind
        have hp := List.find?_some hfind
        rw [Bool.and_eq_true, beq_iff_eq, beq_iff_eq] at hp
        rw [hent] at hmem
        obtain ⟨-, hz, -⟩ := mem_driftEntriesFor hmem
        rw [hp.1] at hz
        exact hz hden
  refine ⟨hnod, ?_⟩
  intro r hr hd
  unfold intervalRows
  rw [List.mem_flatMap]
  refine ⟨d, hd, ?_⟩
  rw [List.mem_map]
  refine ⟨r, hr, ?_⟩
  rw [hnod r.con_code]

def dRows : List SnapshotRow := [⟨9, 1, 5, some 0⟩]

theorem c6_zero_denominator_witness :
    computeDriftWeights wPanel 5 [7] dRows = some [] ∧
      denomAt wPanel 5 (validPairs wPanel 5 dRows) 7 = 0 ∧
        (∀ c, driftLookup (some ([] : List DriftEntry)) 7 c = none) ∧
          ∀ r ∈ dRows, 7 ∈ [(7 : Date)] →
            (⟨7, 5, r.index_code, r.con_code, r.weight, none⟩ : DailyWeightRow) ∈
              intervalRows dRows 5 [7] (some []) := by
  have h1 : computeDriftWeights wPanel 5 [7] dRows = some [] := by
    simp [computeDriftWeights, validPairs, validCodes, codesOf, weightOf,
      driftEntriesFor, denomAt, weightedAt, baseAt, wPanel, dRows]
  have h2 : denomAt wPanel 5 (validPairs wPanel 5 dRows) 7 = 0 := by
    simp [validPairs, validCodes, codesOf, weightOf, denomAt, weightedAt,
      baseAt, wPanel, dRows]
  exact ⟨h1, h2, c6_zero_denominator wPanel 5 [7] dRows [] h1 7 h2⟩

theorem sum_filterMap_drift (L : List (Code × ℚ)) (f : Code × ℚ → Option ℚ)
    (denom : ℚ) (d : Date) :
    (((L.filterMap fun cw => (f cw).map fun x =>
        (⟨d, cw.1, x / denom⟩ : DriftEntry)).map
          fun e => e.drift_weight).sum) =
      (L.map fun cw => (f cw).getD 0).sum / denom := by
  induction L with
  | nil => simp
  | cons cw t ih =>
      cases hf : f cw with
      | none => simp [hf, ih]
      | some x => simp [hf, ih, add_div]

theorem filter_flatMap_eq {α β : Type} (l : List α) (g : α → List β)
    (p : β → Bool) :
    (l.flatMap g).filter p = l.flatMap fun a => (g a).filter p := by
  induction l with
  | nil => rfl
  | cons a t ih => simp [List.flatMap_cons, List.filter_append, ih]

/-- C2. Whenever at least one constituent has a defined `drift_weight` on day
`d`, the drift values present on day `d` (exactly the constituents with a
defined value — unavailable prices appear in neither numerator nor
denominator) sum to exactly 1 (the floating tolerance of the spec becomes
exact equality over ℚ). The hypothesis `hbase` restricts the statement to
panels whose divided base prices are nonzero: that is where the rational
embedding of `segment_prices.divide(base_prices)` is faithful to the
source's float division, and it is what the data model's `close > 0`
invariant guarantees; a zero base instead sends the source down the
division-by-zero path recorded at `c7_zero_base_not_excluded`, where the
float drift values of the remaining constituents degenerate to 0. -/
theorem c2_drift_weights_sum_to_one (panel : Panel) (s : Date)
    (segDays : List Date) (rows : List SnapshotRow) (entries : List DriftEntry)
    (hnodup : segDays.Nodup)
    (hbase : ∀ cw ∈ validPairs panel s rows, baseAt panel s cw.1 ≠ 0)
    (h : computeDriftWeights panel s segDays rows = some entries)
    (d : Date) (hd : ∃ e ∈ entries, e.trade_date = d) :
    ((entries.filter fun e => e.trade_date == d).map
      fun e => e.drift_weight).sum = 1 := by
  have hent := computeDriftWeights_some_spec h
  obtain ⟨e0, he0, he0d⟩ := hd
  have hspec := mem_driftEntriesFor (hent ▸ he0)
  rw [he0d] at hspec
  obtain ⟨hdmem, hdenom, -⟩ := hspec
  set pairs := validPairs panel s rows with hpairs
  have hblock : ∀ dd : Date,
      ((if denomAt panel s pairs dd = 0 then []
        else pairs.filterMap fun cw =>
          (weightedAt panel s dd cw).map fun x =>
            (⟨dd, cw.1, x / denomAt panel s pairs dd⟩ : DriftEntry)).filter
        fun e => e.trade_date == d) =
      if dd = d then
        (if denomAt panel s pairs dd = 0 then []
         else pairs.filterMap fun cw =>
           (weightedAt panel s dd cw).map fun x =>
             (⟨dd, cw.1, x / denomAt panel s pairs dd⟩ : DriftEntry))
      else [] := by
    intro dd
    by_cases hdd : dd = d
    · rw [if_pos hdd]
      apply List.filter_eq_self.mpr
      intro e he
      by_cases hz : denomAt panel s pairs dd = 0
      · rw [if_pos hz] at he
        exact absurd he (by simp)
      · rw [if_neg hz] at he
        rw [List.mem_filterMap] at he
        obtain ⟨cw, -, hmap⟩ := he
        cases hw : weightedAt panel s dd cw with
        | none =>
            rw [hw] at hmap
            exact absurd hmap (by simp)
        | some x =>
            rw [hw] at hmap
            simp only [Option.map_some'] at hmap
            cases hmap
            simpa using hdd
    · rw [if_neg hdd]
      apply List.filter_eq_nil_iff.mpr
      intro e he
      by_cases hz : denomAt panel s pairs dd = 0
      · rw [if_pos hz] at he
        exact absurd he (by simp)
      · rw [if_neg hz] at he
        rw [List.mem_filterMap] at he
        obtain ⟨cw, -, hmap⟩ := he
        cases hw : weightedAt panel s dd cw with
        | none =>
            rw [hw] at hmap
            exact absurd hmap (by simp)
        | some x =>
            rw [hw] at hmap
            simp only [Option.map_some'] at hmap
            cases hmap
            simpa using hdd
  have hfilter : entries.filter (fun e => e.trade_date == d) =
      if denomAt panel s pairs d = 0 then []
      else pairs.filterMap fun cw =>
        (weightedAt panel s d cw).map fun x =>
          (⟨d, cw.1, x / denomAt panel s pairs d⟩ : DriftEntry) := by
    rw [hent]
    unfold driftEntriesFor
    rw [filter_flatMap_eq]
    have : ∀ (days : List Date), days.Nodup → d ∈ days →
        (days.flatMap fun dd =>
          ((if denomAt panel s pairs dd = 0 then []
            else pairs.filterMap fun cw =>
              (weightedAt panel s dd cw).map fun x =>
                (⟨dd, cw.1, x / denomAt panel s pairs dd⟩ : DriftEntry)).filter
            fun e => e.trade_date == d)) =
        (if denomAt panel s pairs d = 0 then []
         else pairs.filterMap fun cw =>
           (weightedAt panel s d cw).map fun x =>
             (⟨d, cw.1, x / denomAt panel s pairs d⟩ : DriftEntry)) := by
      intro days
      induction days with
      | nil => intro _ hmem; exact absurd hmem (by simp)
      | cons a t ih =>
          intro hnd hmem
          rw [List.flatMap_cons]
          rcases List.mem_cons.mp hmem with had | hat
          · have hnota : d ∉ t := by
              subst had
              exact (List.nodup_cons.mp hnd).1
            rw [hblock a, if_pos had.symm]
            have htail : (t.flatMap fun dd =>
                ((if denomAt panel s pairs dd = 0 then []
                  else pairs.filterMap fun cw =>
                    (weightedAt panel s dd cw).map fun x =>
                      (⟨dd, cw.1, x / denomAt panel s pairs dd⟩ : DriftEntry)).filter
                  fun e => e.trade_date == d)) = [] := by
              apply List.flatMap_eq_nil_iff.mpr
              intro dd hdd
              rw [hblock dd, if_neg]
              intro hcon
              rw [hcon] at hdd
              exact hnota hdd
            rw [htail, had, List.append_nil]
          · have hane : a ≠ d := by
              intro hcon
              rw [hcon] at hnd
              exact (List.nodup_cons.mp hnd).1 hat
            rw [hblock a, if_neg hane, List.nil_append]
            exact ih (List.nodup_cons.mp hnd).2 hat
    exact this segDays hnodup hdmem
  rw [hfilter, if_neg hdenom, sum_filterMap_drift]
  exact div_self hdenom

theorem c2_drift_weights_sum_to_one_witness :
    (∀ cw ∈ validPairs wPanel 5 wRows, baseAt wPanel 5 cw.1 ≠ 0) ∧
      computeDriftWeights wPanel 5 [7] wRows = some [⟨7, 1, 1⟩] ∧
        (∃ e ∈ [(⟨7, 1, 1⟩ : DriftEntry)], e.trade_date = 7) ∧
          ((([(⟨7, 1, 1⟩ : DriftEntry)]).filter fun e => e.trade_date == 7).map
            fun e => e.drift_weight).sum = 1 := by
  have hb : ∀ cw ∈ validPairs wPanel 5 wRows, baseAt wPanel 5 cw.1 ≠ 0 := by
    simp [validPairs, validCodes, codesOf, weightOf, baseAt, wPanel, wRows]
  have h1 : computeDriftWeights wPanel 5 [7] wRows = some [⟨7, 1, 1⟩] := by
    simp [computeDriftWeights, validPairs, validCodes, codesOf, weightOf,
      driftEntriesFor, denomAt, weightedAt, baseAt, wPanel, wRows]
  refine ⟨hb, h1, ⟨⟨7, 1, 1⟩, by simp, rfl⟩, ?_⟩
  exact c2_drift_weights_sum_to_one wPanel 5 [7] wRows [⟨7, 1, 1⟩] (by simp) hb
    h1 7 ⟨⟨7, 1, 1⟩, by simp, rfl⟩

/-- A panel in which instrument 2 has no column at all (as happens when no
price row for it survives `dropna`). -/
def c3Panel : Panel :=
  ⟨[5, 7], [1],
   fun c d =>
     if c = 1 then (if d = 5 then some 1 else if d = 7 then some 1 else none)
     else none⟩

/-- A panel in which instrument 2 has a column but its base price on the
snapshot day 5 is undefined (its first observation is on day 7). -/
def c3bPanel : Panel :=
  ⟨[5, 7], [1, 2],
   fun c d =>
     if c = 1 then (if d = 5 then some 1 else if d = 7 then some 1 else none)
     else if c = 2 then (if d = 7 then some 1 else none)
     else none⟩

def c3Rows : List SnapshotRow := [⟨9, 1, 5, some 1⟩, ⟨9, 2, 5, some 1⟩]

/-- C3 (counterexample). Constituent 2's base price is undefined, constituent
1's base price is defined, yet NO constituent of the interval receives a
drift value: when the base-price-undefined constituent has no column in the
panel at all, `price_panel.loc[snapshot_date, codes]` raises `KeyError` and
the whole interval's drift is dropped — not only constituent 2. -/
theorem c3_counterexample :
    c3Panel.cell 2 5 = none ∧ (c3Panel.cell 1 5).isSome = true ∧
      computeDriftWeights c3Panel 5 [7] c3Rows = none ∧
        ∀ rw ∈ intervalRows c3Rows 5 [7]
            (computeDriftWeights c3Panel 5 [7] c3Rows),
          rw.drift_weight = none := by
  refine ⟨rfl, rfl, ?_, ?_⟩
  · simp [computeDriftWeights, codesOf, c3Panel, c3Rows]
  · intro rw hrw
    have hnone : computeDriftWeights c3Panel 5 [7] c3Rows = none := by
      simp [computeDriftWeights, codesOf, c3Panel, c3Rows]
    rw [hnone] at hrw
    simp only [intervalRows, List.mem_flatMap, List.mem_map] at hrw
    obtain ⟨d, -, r, -, hrq⟩ := hrw
    rw [← hrq]
    rfl

theorem codesOf_filter_ne (rows : List SnapshotRow) (c : Code) :
    codesOf (rows.filter fun r => !(r.con_code == c)) =
      (codesOf rows).filter fun x => !(x == c) := by
  induction rows with
  | nil => rfl
  | cons r t ih =>
      by_cases hrc : r.con_code = c
      · simp [codesOf, List.filter_cons, hrc] at ih ⊢
        exact ih
      · simp [codesOf, List.filter_cons, hrc] at ih ⊢
        exact ih

theorem filter_of_filter_ne {l : List Code} {q : Code → Bool} {c : Code}
    (hq : q c = false) :
    (l.filter fun x => !(x == c)).filter q = l.filter q := by
  rw [List.filter_filter]
  apply List.filter_congr
  intro a ha
  by_cases hac : a = c
  · subst hac
    simp [hq]
  · simp [hac]

theorem weightOf_filter_ne {rows : List SnapshotRow} {c x : Code} (hx : x ≠ c) :
    weightOf (rows.filter fun r => !(r.con_code == c)) x = weightOf rows x := by
  induction rows with
  | nil => rfl
  | cons r t ih =>
      unfold weightOf at ih ⊢
      by_cases hrc : r.con_code = c
      · have h1 : (r :: t).filter (fun r => !(r.con_code == c)) =
            t.filter fun r => !(r.con_code == c) := by
          simp [List.filter_cons, hrc]
        have h2 : (r :: t).find? (fun r => r.con_code == x) =
            t.find? fun r => r.con_code == x := by
          apply List.find?_cons_of_neg
          simp [hrc, Ne.symm hx]
        rw [h1, h2]
        exact ih
      · by_cases hrx : r.con_code = x
        · have h1 : (r :: t).filter (fun r => !(r.con_code == c)) =
              r :: (t.filter fun r => !(r.con_code == c)) := by
            simp [List.filter_cons, hrc]
          rw [h1, List.find?_cons_of_pos, List.find?_cons_of_pos]
          · simp [hrx]
          · simp [hrx]
        · have h1 : (r :: t).filter (fun r => !(r.con_code == c)) =
              r :: (t.filter fun r => !(r.con_code == c)) := by
            simp [List.filter_cons, hrc]
          rw [h1, List.find?_cons_of_neg, List.find?_cons_of_neg]
          · exact ih
          · simp [hrx]
          · simp [hrx]

/-- C3 (amended). If constituent `c`'s base price on the snapshot day is
undefined while the snapshot date is on the panel axis and every constituent
still has a column in the panel, then only `c` is excluded: the drift result
is exactly the one computed with `c`'s rows removed, `c`'s `drift_weight` is
undefined on every day, and `c`'s static weight rows are still emitted. If
instead some snapshot constituent has no column in the panel at all, the
drift computation returns no result and every constituent's `drift_weight`
is undefined for the whole interval. -/
theorem c3_base_missing_excludes_only_that_constituent (panel : Panel)
    (s : Date) (segDays : List Date) (rows : List SnapshotRow) (c : Code) :
    (s ∈ panel.axis → (∀ x ∈ codesOf rows, x ∈ panel.cols) →
      panel.cell c s = none →
        computeDriftWeights panel s segDays rows =
            computeDriftWeights panel s segDays
              (rows.filter fun r => !(r.con_code == c)) ∧
          ∀ entries, computeDriftWeights panel s segDays rows = some entries →
            (∀ d, driftLookup (some entries) d c = none) ∧
              ∀ r ∈ rows, ∀ d ∈ segDays,
                (⟨d, s, r.index_code, r.con_code, r.weight,
                  driftLookup (some entries) d r.con_code⟩ : DailyWeightRow) ∈
                  intervalRows rows s segDays (some entries)) ∧
    (c ∈ codesOf rows → c ∉ panel.cols →
      computeDriftWeights panel s segDays rows = none) := by
  constructor
  · intro hax hcols hbase
    have hq : ((panel.cell c s).isSome : Bool) = false := by
      rw [hbase]
      rfl
    have hvc : validCodes panel s (rows.filter fun r => !(r.con_code == c)) =
        validCodes panel s rows := by
      unfold validCodes
      rw [codesOf_filter_ne]
      exact filter_of_filter_ne hq
    have hvc_ne : ∀ x ∈ validCodes panel s rows, x ≠ c := by
      intro x hx hcon
      rw [validCodes, List.mem_filter] at hx
      subst hcon
      rw [hq] at hx
      exact Bool.false_ne_true hx.2
    have hvp : validPairs panel s (rows.filter fun r => !(r.con_code == c)) =
        validPairs panel s rows := by
      unfold validPairs
      rw [hvc]
      apply List.filterMap_congr
      intro x hx
      rw [weightOf_filter_ne (hvc_ne x hx)]
    have heq : computeDriftWeights panel s segDays rows =
        computeDriftWeights panel s segDays
          (rows.filter fun r => !(r.con_code == c)) := by
      have hg2 : s ∈ panel.axis ∧
          ∀ x ∈ codesOf (rows.filter fun r => !(r.con_code == c)),
            x ∈ panel.cols := by
        refine ⟨hax, ?_⟩
        intro x hx
        rw [codesOf_filter_ne, List.mem_filter] at hx
        exact hcols x hx.1
      unfold computeDriftWeights
      rw [if_pos ⟨hax, hcols⟩, if_pos hg2, hvc, hvp]
    refine ⟨heq, ?_⟩
    intro entries hent
    have hspec := computeDriftWeights_some_spec hent
    have hnoc : ∀ d, driftLookup (some entries) d c = none := by
      intro d
      unfold driftLookup
      cases hfind : entries.find? fun e => e.trade_date == d && e.con_code == c with
      | none => simp [hfind]
      | some e =>
          exfalso
          have hmem : e ∈ entries := List.mem_of_find?_eq_some hfind
          have hp := List.find?_some hfind
          rw [Bool.and_eq_true, beq_iff_eq, beq_iff_eq] at hp
          rw [hspec] at hmem
          obtain ⟨-, -, hcode⟩ := mem_driftEntriesFor hmem
          rw [List.mem_map] at hcode
          obtain ⟨cw, hcw, hfst⟩ := hcode
          have : cw.1 ∈ validCodes panel s rows := by
            unfold validPairs at hcw
            rw [List.mem_filterMap] at hcw
            obtain ⟨x, hx, hxeq⟩ := hcw
            cases hw : weightOf rows x with
            | none => rw [hw] at hxeq; exact absurd hxeq (by simp)
            | some w =>
                rw [hw] at hxeq
                simp only [Option.map_some'] at hxeq
                cases hxeq
                exact hx
          exact hvc_ne cw.1 this (hfst.trans hp.2)
    refine ⟨hnoc, ?_⟩
    intro r hr d hd
    unfold intervalRows
    rw [List.mem_flatMap]
    exact ⟨d, hd, List.mem_map.mpr ⟨r, hr, rfl⟩⟩
  · intro hc hncol
    unfold computeDriftWeights
    rw [if_neg]
    intro hcon
    exact hncol (hcon.2 c hc)

theorem c3_base_missing_witness :
    ((5 : Date) ∈ c3bPanel.axis ∧ (∀ x ∈ codesOf c3Rows, x ∈ c3bPanel.cols) ∧
      c3bPanel.cell 2 5 = none ∧
      computeDriftWeights c3bPanel 5 [7] c3Rows =
        computeDriftWeights c3bPanel 5 [7]
          (c3Rows.filter fun r => !(r.con_code == 2))) ∧
    ((2 : Code) ∈ codesOf c3Rows ∧ (2 : Code) ∉ c3Panel.cols ∧
      computeDriftWeights c3Panel 5 [7] c3Rows = none) := by
  constructor
  · refine ⟨by decide, by decide, rfl, ?_⟩
    exact ((c3_base_missing_excludes_only_that_constituent c3bPanel 5 [7]
      c3Rows 2).1 (by decide) (by decide) rfl).1
  · refine ⟨by decide, by decide, ?_⟩
    exact (c3_base_missing_excludes_only_that_constituent c3Panel 5 [7]
      c3Rows 2).2 (by decide) (by decide)

theorem mem_dedupSort {l : List Date} {x : Date} : x ∈ dedupSort l ↔ x ∈ l := by
  unfold dedupSort
  rw [(List.perm_insertionSort _ l.dedup).mem_iff, List.mem_dedup]

theorem dedupSort_nodup (l : List Date) : (dedupSort l).Nodup :=
  (List.perm_insertionSort _ l.dedup).nodup_iff.mpr (List.nodup_dedup l)

theorem dedupSort_sorted_lt (l : List Date) :
    (dedupSort l).Pairwise (· < ·) := by
  have hle : (dedupSort l).Pairwise (· ≤ ·) :=
    List.sorted_insertionSort _ l.dedup
  have hnd := dedupSort_nodup l
  exact (hle.and hnd).imp fun h => Nat.lt_of_le_of_ne h.1 h.2

theorem findSome?_desc_some {f : Date → Option ℚ} {l : List Date}
    (hl : l.Pairwise fun a b => b < a) (v : ℚ) :
    l.findSome? f = some v ↔
      ∃ a ∈ l, f a = some v ∧ ∀ b ∈ l, a < b → f b = none := by
  induction l with
  | nil => simp
  | cons x t ih =>
      obtain ⟨hx, ht⟩ := List.pairwise_cons.mp hl
      rw [List.findSome?_cons]
      cases hfx : f x with
      | some w =>
          constructor
          · intro hsome
            refine ⟨x, List.mem_cons_self x t, ?_, ?_⟩
            · rw [hfx]
              exact congrArg some (Option.some.inj hsome)
            · intro b hb hxb
              rcases List.mem_cons.mp hb with hbx | hbt
              · rw [hbx] at hxb
                exact absurd hxb (Nat.lt_irrefl x)
              · exact absurd (hx b hbt) (Nat.not_lt_of_lt hxb)
          · rintro ⟨a, ha, hfa, hmax⟩
            rcases List.mem_cons.mp ha with hax | hat
            · rw [hax] at hfa
              rw [hfa] at hfx
              rw [hfx]
            · exact absurd hfx (by
                rw [hmax x (List.mem_cons_self x t) (hx a hat)]
                intro hcon
                exact Option.noConfusion hcon)
      | none =>
          rw [ih ht]
          constructor
          · rintro ⟨a, hat, hfa, hmax⟩
            refine ⟨a, List.mem_cons_of_mem x hat, hfa, ?_⟩
            intro b hb hab
            rcases List.mem_cons.mp hb with hbx | hbt
            · rw [hbx]
              exact hfx
            · exact hmax b hbt hab
          · rintro ⟨a, ha, hfa, hmax⟩
            rcases List.mem_cons.mp ha with hax | hat
            · rw [hax] at hfa
              rw [hfa] at hfx
              exact absurd hfx (by intro hcon; exact Option.noConfusion hcon)
            · refine ⟨a, hat, hfa, ?_⟩
              intro b hbt hab
              exact hmax b (List.mem_cons_of_mem x hbt) hab

/-- C5. For a non-empty price-row collection with unique `(ts_code,
trade_date)` keys (pandas `pivot` rejects duplicates) the built panel exists,
its rows are exactly the requested trading days (values are undefined off the
axis), and each on-axis cell is the close of the nearest earlier-or-equal
axis day carrying a raw observation — observations on dates outside the
target list are never consulted — and is undefined exactly when no axis day
at or before `d` carries an observation. An empty input yields no panel. -/
theorem c5_price_panel_build (prices : List PriceRow) (tradeDates : List Date)
    (hne : prices ≠ [])
    (hkeys : (((cleanPrices prices).map fun t => (t.1, t.2.1)).Nodup)) :
    (∃ P, preparePricePanel prices tradeDates = some P ∧
      P.axis = dedupSort tradeDates ∧
      (∀ c d, d ∉ P.axis → P.cell c d = none) ∧
      (∀ c d, d ∈ P.axis → ∀ v,
        (P.cell c d = some v ↔
          ∃ dd, dd ∈ P.axis ∧ dd ≤ d ∧
            obsAt (cleanPrices prices) c dd = some v ∧
            ∀ d2, d2 ∈ P.axis → dd < d2 → d2 ≤ d →
              obsAt (cleanPrices prices) c d2 = none)) ∧
      (∀ c d, d ∈ P.axis →
        (P.cell c d = none ↔
          ∀ dd, dd ∈ P.axis → dd ≤ d →
            obsAt (cleanPrices prices) c dd = none))) ∧
    preparePricePanel [] tradeDates = none := by
  refine ⟨?_, rfl⟩
  have hnotempty : prices.isEmpty = false := by
    cases prices with
    | nil => exact absurd rfl hne
    | cons p t => rfl
  refine ⟨⟨dedupSort tradeDates, ((cleanPrices prices).map fun t => t.1).dedup,
    fun c d => ffillCell (cleanPrices prices) (dedupSort tradeDates) c d⟩,
    ?_, rfl, ?_, ?_, ?_⟩
  · unfold preparePricePanel
    rw [hnotempty]
    rfl
  · intro c d hd
    dsimp only at hd ⊢
    unfold ffillCell
    rw [if_neg hd]
  · intro c d hd v
    dsimp only at hd ⊢
    unfold ffillCell
    rw [if_pos hd]
    have hdesc : ((dedupSort tradeDates).filter fun x => x ≤ d).reverse.Pairwise
        fun a b => b < a := by
      rw [List.pairwise_reverse]
      exact (dedupSort_sorted_lt tradeDates).filter _
    rw [findSome?_desc_some hdesc]
    constructor
    · rintro ⟨a, ha, hfa, hmax⟩
      rw [List.mem_reverse, List.mem_filter] at ha
      refine ⟨a, ha.1, by simpa using ha.2, hfa, ?_⟩
      intro d2 hd2 had2 hd2d
      exact hmax d2 (by
        rw [List.mem_reverse, List.mem_filter]
        exact ⟨hd2, by simpa using hd2d⟩) had2
    · rintro ⟨dd, hdd, hddle, hobs, hmax⟩
      refine ⟨dd, ?_, hobs, ?_⟩
      · rw [List.mem_reverse, List.mem_filter]
        exact ⟨hdd, by simpa using hddle⟩
      · intro b hb hddb
        rw [List.mem_reverse, List.mem_filter] at hb
        exact hmax b hb.1 hddb (by simpa using hb.2)
  · intro c d hd
    dsimp only at hd ⊢
    unfold ffillCell
    rw [if_pos hd, List.findSome?_eq_none_iff]
    constructor
    · intro h dd hdd hddle
      exact h dd (by
        rw [List.mem_reverse, List.mem_filter]
        exact ⟨hdd, by simpa using hddle⟩)
    · intro h dd hdd
      rw [List.mem_reverse, List.mem_filter] at hdd
      exact h dd hdd.1 (by simpa using hdd.2)

def c5Prices : List PriceRow :=
  [⟨some 1, some 5, some 1⟩, ⟨some 1, some 8, some 1⟩, ⟨none, some 7, some 1⟩]

theorem c5_price_panel_build_witness :
    c5Prices ≠ [] ∧
      ((((cleanPrices c5Prices).map fun t => (t.1, t.2.1)).Nodup) ∧
        ∃ P, preparePricePanel c5Prices [7, 5] = some P ∧
          P.axis = dedupSort [7, 5] ∧
          (∀ c d, d ∉ P.axis → P.cell c d = none) ∧
          (∀ c d, d ∈ P.axis → ∀ v,
            (P.cell c d = some v ↔
              ∃ dd, dd ∈ P.axis ∧ dd ≤ d ∧
                obsAt (cleanPrices c5Prices) c dd = some v ∧
                ∀ d2, d2 ∈ P.axis → dd < d2 → d2 ≤ d →
                  obsAt (cleanPrices c5Prices) c d2 = none)) ∧
          (∀ c d, d ∈ P.axis →
            (P.cell c d = none ↔
              ∀ dd, dd ∈ P.axis → dd ≤ d →
                obsAt (cleanPrices c5Prices) c dd = none))) := by
  have h1 : c5Prices ≠ [] := by
    intro hcon
    exact List.noConfusion hcon
  have h2 : (((cleanPrices c5Prices).map fun t => (t.1, t.2.1)).Nodup) := by
    decide
  exact ⟨h1, h2, (c5_price_panel_build c5Prices [7, 5] h1 h2).1⟩

theorem mem_dropDuplicatesByKey {rows : List SnapshotRow}
    {seen : List (Code × Code × Date)} {r : SnapshotRow} :
    r ∈ dropDuplicatesByKey rows seen ↔
      ∃ l1 l2, rows = l1 ++ r :: l2 ∧ dedupKey r ∉ seen ∧
        ∀ x ∈ l1, dedupKey x ≠ dedupKey r := by
  induction rows generalizing seen with
  | nil =>
      constructor
      · intro h
        exact absurd h (by simp [dropDuplicatesByKey])
      · rintro ⟨l1, l2, heq, -, -⟩
        exact absurd heq (by simp)
  | cons a t ih =>
      unfold dropDuplicatesByKey
      by_cases ha : dedupKey a ∈ seen
      · rw [if_pos ha, ih]
        constructor
        · rintro ⟨l1, l2, ht, hseen, hl1⟩
          refine ⟨a :: l1, l2, by rw [ht, List.cons_append], hseen, ?_⟩
          intro x hx
          rcases List.mem_cons.mp hx with hxa | hxl1
          · rw [hxa]
            intro hcon
            rw [hcon] at ha
            exact hseen ha
          · exact hl1 x hxl1
        · rintro ⟨l1, l2, heq, hseen, hl1⟩
          cases l1 with
          | nil =>
              rw [List.nil_append] at heq
              have har : a = r := (List.cons.inj heq).1
              rw [har] at ha
              exact absurd ha hseen
          | cons b l1t =>
              rw [List.cons_append] at heq
              obtain ⟨-, hteq⟩ := List.cons.inj heq
              exact ⟨l1t, l2, hteq, hseen, fun x hx =>
                hl1 x (List.mem_cons_of_mem b hx)⟩
      · rw [if_neg ha, List.mem_cons, ih]
        constructor
        · rintro (hra | ⟨l1, l2, ht, hseen, hl1⟩)
          · refine ⟨[], t, by rw [hra, List.nil_append], ?_, by simp⟩
            rw [hra]
            exact ha
          · have hrkey : dedupKey r ∉ seen ∧ dedupKey r ≠ dedupKey a := by
              constructor
              · intro hcon
                exact hseen (List.mem_cons_of_mem _ hcon)
              · intro hcon
                exact hseen (by rw [hcon]; exact List.mem_cons_self _ _)
            refine ⟨a :: l1, l2, by rw [ht, List.cons_append], hrkey.1, ?_⟩
            intro x hx
            rcases List.mem_cons.mp hx with hxa | hxl1
            · rw [hxa]
              exact fun hcon => hrkey.2 hcon.symm
            · exact hl1 x hxl1
        · rintro ⟨l1, l2, heq, hseen, hl1⟩
          cases l1 with
          | nil =>
              rw [List.nil_append] at heq
              exact Or.inl ((List.cons.inj heq).1.symm)
          | cons b l1t =>
              rw [List.cons_append] at heq
              obtain ⟨hab, hteq⟩ := List.cons.inj heq
              refine Or.inr ⟨l1t, l2, hteq, ?_, fun x hx =>
                hl1 x (List.mem_cons_of_mem b hx)⟩
              intro hcon
              rcases List.mem_cons.mp hcon with hk | hk
              · exact hl1 b (List.mem_cons_self b l1t) (by rw [← hab, ← hk])
              · exact hseen hk

theorem dropDuplicatesByKey_pairwise (rows : List SnapshotRow)
    (seen : List (Code × Code × Date)) :
    (dropDuplicatesByKey rows seen).Pairwise
        (fun a b => dedupKey a ≠ dedupKey b) ∧
      ∀ r ∈ dropDuplicatesByKey rows seen, dedupKey r ∉ seen := by
  induction rows generalizing seen with
  | nil => simp [dropDuplicatesByKey]
  | cons a t ih =>
      unfold dropDuplicatesByKey
      by_cases ha : dedupKey a ∈ seen
      · rw [if_pos ha]
        exact ih seen
      · rw [if_neg ha]
        obtain ⟨hpw, hnotin⟩ := ih (dedupKey a :: seen)
        refine ⟨?_, ?_⟩
        · rw [List.pairwise_cons]
          refine ⟨?_, hpw⟩
          intro b hb hcon
          exact hnotin b hb (by rw [← hcon]; exact List.mem_cons_self _ _)
        · intro r hr
          rcases List.mem_cons.mp hr with hra | hrt
          · rw [hra]
            exact ha
          · intro hcon
            exact hnotin r hrt (List.mem_cons_of_mem _ hcon)

/-- C4 (counterexample). On a duplicate key the EXISTING row wins, not the
newly fetched one: `drop_duplicates` is called with pandas' default
`keep="first"` and the existing rows come first in the concat. The spec's
last-seen-wins merge (`specMergeLastWins`) gives a different table on the
same input. -/
theorem c4_counterexample :
    mergeIncremental [⟨1, 1, 10, some 1⟩] [⟨1, 1, 10, some 2⟩] =
        [⟨1, 1, 10, some 1⟩] ∧
      specMergeLastWins [⟨1, 1, 10, some 1⟩] [⟨1, 1, 10, some 2⟩] =
        [⟨1, 1, 10, some 2⟩] ∧
      mergeIncremental [⟨1, 1, 10, some 1⟩] [⟨1, 1, 10, some 2⟩] ≠
        specMergeLastWins [⟨1, 1, 10, some 1⟩] [⟨1, 1, 10, some 2⟩] := by
  refine ⟨by decide, by decide, by decide⟩

/-- C4 (amended). With `full_refresh = false`, an existing table present and
a non-empty fetch, the merged table is `concat(existing, new)` deduplicated
on `(index_code, con_code, trade_date)` keeping one row per key where on a
duplicate key the FIRST-seen row — the existing row — wins (newly fetched
duplicates are discarded), then sorted by
`(trade_date, index_code, con_code)`: the result is sorted, has pairwise
distinct keys, and contains exactly the first occurrence of each key of the
concatenation. -/
theorem c4_merge_dedup_keeps_first (existing dfNew : List SnapshotRow)
    (hnew : dfNew ≠ []) :
    List.Sorted rowLe (mergeIncremental existing dfNew) ∧
      (mergeIncremental existing dfNew).Pairwise
        (fun a b => dedupKey a ≠ dedupKey b) ∧
      ∀ r, r ∈ mergeIncremental existing dfNew ↔
        ∃ l1 l2, existing ++ dfNew = l1 ++ r :: l2 ∧
          ∀ x ∈ l1, dedupKey x ≠ dedupKey r := by
  have hnewe : dfNew.isEmpty = false := by
    cases dfNew with
    | nil => exact absurd rfl hnew
    | cons a t => rfl
  have hmerge : mergeIncremental existing dfNew =
      if (dropDuplicatesFirst (existing ++ dfNew)).isEmpty then
        dropDuplicatesFirst (existing ++ dfNew)
      else sortRows (dropDuplicatesFirst (existing ++ dfNew)) := by
    unfold mergeIncremental
    rw [hnewe]
    rfl
  have hperm : ∀ l : List SnapshotRow, (sortRows l).Perm l :=
    fun l => List.perm_insertionSort rowLe l
  have hsym : ∀ {x y : SnapshotRow}, dedupKey x ≠ dedupKey y →
      dedupKey y ≠ dedupKey x := fun h => Ne.symm h
  by_cases hempty : (dropDuplicatesFirst (existing ++ dfNew)).isEmpty
  · rw [hmerge, if_pos hempty]
    have hnil : dropDuplicatesFirst (existing ++ dfNew) = [] :=
      List.isEmpty_iff.mp hempty
    rw [hnil]
    refine ⟨List.sorted_nil, List.Pairwise.nil, ?_⟩
    intro r
    constructor
    · intro h
      exact absurd h (by simp)
    · rintro ⟨l1, l2, heq, hl1⟩
      exfalso
      have : r ∈ dropDuplicatesFirst (existing ++ dfNew) := by
        unfold dropDuplicatesFirst
        rw [mem_dropDuplicatesByKey]
        exact ⟨l1, l2, heq, by simp, hl1⟩
      rw [hnil] at this
      exact absurd this (by simp)
  · rw [hmerge, if_neg hempty]
    refine ⟨List.sorted_insertionSort rowLe _, ?_, ?_⟩
    · rw [List.Perm.pairwise_iff hsym (hperm _)]
      exact (dropDuplicatesByKey_pairwise (existing ++ dfNew) []).1
    · intro r
      rw [(hperm _).mem_iff]
      unfold dropDuplicatesFirst
      rw [mem_dropDuplicatesByKey]
      constructor
      · rintro ⟨l1, l2, heq, -, hl1⟩
        exact ⟨l1, l2, heq, hl1⟩
      · rintro ⟨l1, l2, heq, hl1⟩
        exact ⟨l1, l2, heq, by simp, hl1⟩

theorem c4_merge_dedup_keeps_first_witness :
    ([⟨1, 1, 10, some 2⟩] : List SnapshotRow) ≠ [] ∧
      (List.Sorted rowLe
          (mergeIncremental [⟨1, 1, 10, some 1⟩] [⟨1, 1, 10, some 2⟩]) ∧
        (mergeIncremental [⟨1, 1, 10, some 1⟩] [⟨1, 1, 10, some 2⟩]).Pairwise
          (fun a b => dedupKey a ≠ dedupKey b) ∧
        ∀ r, r ∈ mergeIncremental [⟨1, 1, 10, some 1⟩] [⟨1, 1, 10, some 2⟩] ↔
          ∃ l1 l2,
            [⟨1, 1, 10, some 1⟩] ++ [⟨1, 1, 10, some 2⟩] = l1 ++ r :: l2 ∧
              ∀ x ∈ l1, dedupKey x ≠ dedupKey r) := by
  refine ⟨by decide, ?_⟩
  exact c4_merge_dedup_keeps_first [⟨1, 1, 10, some 1⟩] [⟨1, 1, 10, some 2⟩]
    (by decide)

/-- C8. With `full_refresh = false` and a non-empty existing table: the fetch
window starts at `max(existing snapshot dates) + 1`; when that start exceeds
the requested end date no fetch happens, `rows_added = 0` and the merged
table is the existing table unchanged; otherwise the fetch is invoked at
exactly that window, the merged table is the incremental merge, and
`rows_added` equals the count of newly fetched rows whatever their overlap
with existing keys (a fetch count, not a net-new count). -/
theorem c8_incremental_fetch_window (ex : List SnapshotRow)
    (defaultStart endDate : Date) (fetch : Date → Date → List SnapshotRow)
    (hex : ex ≠ []) :
    (endDate < maxTradeDate ex + 1 →
      refreshIndexWeight (some ex) defaultStart endDate fetch false =
        some ⟨ex, 0, false⟩) ∧
    (maxTradeDate ex + 1 ≤ endDate →
      refreshIndexWeight (some ex) defaultStart endDate fetch false =
        some ⟨mergeIncremental ex (fetch (maxTradeDate ex + 1) endDate),
          (fetch (maxTradeDate ex + 1) endDate).length, true⟩) := by
  have hexe : ex.isEmpty = false := by
    cases ex with
    | nil => exact absurd rfl hex
    | cons a t => rfl
  constructor
  · intro h
    unfold refreshIndexWeight
    simp only [hexe, Bool.false_eq_true, if_false]
    rw [if_pos h]
  · intro h
    unfold refreshIndexWeight
    simp only [hexe, Bool.false_eq_true, if_false]
    rw [if_neg (Nat.not_lt.mpr h)]

def c8Existing : List SnapshotRow := [⟨1, 1, 10, some 1⟩]

def c8Fetch : Date → Date → List SnapshotRow := fun _ _ => [⟨1, 1, 12, some 1⟩]

theorem c8_incremental_fetch_window_witness :
    ((5 : Date) < maxTradeDate c8Existing + 1 ∧
      refreshIndexWeight (some c8Existing) 1 5 c8Fetch false =
        some ⟨c8Existing, 0, false⟩) ∧
    (maxTradeDate c8Existing + 1 ≤ (12 : Date) ∧
      refreshIndexWeight (some c8Existing) 1 12 c8Fetch false =
        some ⟨mergeIncremental c8Existing (c8Fetch (maxTradeDate c8Existing + 1) 12),
          (c8Fetch (maxTradeDate c8Existing + 1) 12).length, true⟩) := by
  constructor
  · exact ⟨by decide,
      (c8_incremental_fetch_window c8Existing 1 5 c8Fetch (by decide)).1
        (by decide)⟩
  · exact ⟨by decide,
      (c8_incremental_fetch_window c8Existing 1 12 c8Fetch (by decide)).2
        (by decide)⟩

theorem c1_segmenter_partition_witness :
    List.Sorted (· < ·) [(2 : Date), 4] ∧
      (∃! i, (3 : Date) ∈ intervalDays [1, 2, 3, 4] [2, 4] i) ∧
        ∀ i, (1 : Date) ∉ intervalDays [1, 2, 3, 4] [2, 4] i := by
  have h := c1_segmenter_partition [1, 2, 3, 4] [2, 4] (by decide) 3 (by decide)
    2 (by decide)
  have h1 := c1_segmenter_partition [1, 2, 3, 4] [2, 4] (by decide) 1 (by decide)
    2 (by decide)
  exact ⟨by decide, h.2.2.1 (by decide), h1.2.2.2 (by decide)⟩

end IndexWeight
